import Mathlib

/-!
Verification of the `semester` class-set compiler.

The development shallowly embeds the compiler pipeline of
`semester-macro/src/lib.rs` together with the blanket
`impl StaticClasses -> Classes` of `semester/src/lib.rs`:

* token validation (`ClassName::parse`),
* the 4-valued `Known` lattice and the structural classifier `is_known`,
* duplicate detection and constant folding (`Classes::parse`),
* the dynamic generator `classes_impl` (coalescing, rendered emissions,
  `render`, `try_as_str`, the iterator slot list),
* the static generator `static_classes_impl` (breadth-first work queue
  producing the combinatorial table, plus the match-based row lookup).

Runtime boolean outcomes of the surviving (`Maybe`-classified) conditions
are modelled by an assignment list, one `Bool` per live condition in
declaration order: the dynamic generator stores exactly these booleans in
its generated record, and the static generator matches on exactly this
tuple.
-/

namespace Semester

/-- The 4-valued lattice of `semester_macro::Known`. -/
inductive Known where
  | True
  | False
  | Maybe
  | Never
deriving DecidableEq, Repr

/-- `Known::is_false`: `Never` and `False` both count as false for filtering. -/
def Known.is_false : Known → Bool
  | Known.Never => true
  | Known.False => true
  | _ => false

/-- `Known::is_true`. -/
def Known.is_true : Known → Bool
  | Known.True => true
  | _ => false

/-- `impl Not for Known`. -/
def Known.not : Known → Known
  | Known.True => Known.False
  | Known.False => Known.True
  | Known.Maybe => Known.Maybe
  | Known.Never => Known.Never

/--
Abstraction of `syn::Expr` preserving exactly the syntactic shapes that
`is_known` distinguishes:

* `lit b` is `Expr::Lit` with a boolean literal;
* `group`/`paren` are `Expr::Group`/`Expr::Paren`;
* `blockTrailing e` is `Expr::Block` whose final statement is a bare
  trailing expression `e` (`Stmt::Expr`);
* `blockOpaque` is `Expr::Block` whose final statement is not a bare
  trailing expression (or whose statement list is empty);
* `breakExpr`/`continueExpr`/`returnExpr` are `Expr::Break`/`Expr::Continue`/
  `Expr::Return`;
* `unaryNot e` is `Expr::Unary` with `UnOp::Not`;
* `other` is every other expression (calls, comparisons, identifiers,
  numeric literals, non-`!` unary operators, ...).
-/
inductive Expr where
  | lit (value : Bool)
  | group (inner : Expr)
  | paren (inner : Expr)
  | blockTrailing (inner : Expr)
  | blockOpaque
  | breakExpr
  | continueExpr
  | returnExpr
  | unaryNot (inner : Expr)
  | other
deriving DecidableEq, Repr

/-- `is_known`: structural compile-time classification of a condition. -/
def is_known : Expr → Known
  | Expr.lit true => Known.True
  | Expr.lit false => Known.False
  | Expr.group e => is_known e
  | Expr.paren e => is_known e
  | Expr.blockTrailing e => is_known e
  | Expr.blockOpaque => Known.Maybe
  | Expr.breakExpr => Known.Never
  | Expr.continueExpr => Known.Never
  | Expr.returnExpr => Known.Never
  | Expr.unaryNot e => (is_known e).not
  | Expr.other => Known.Maybe

/--
`ClassName`: a parsed class literal. `span` models the source span of the
`LitStr` (an opaque identifier supplied by the front end); `classStr` is
`literal.value()` (the field is called `class` in the source, which is a
reserved word in Lean).
-/
structure ClassName where
  span : Nat
  classStr : String
deriving DecidableEq, Repr

/-- `ParsedClassRule`: one entry of the macro input. -/
structure ParsedClassRule where
  id : ClassName
  condition : Option Expr
deriving DecidableEq, Repr

/-- `ParsedClassRule::state`: an absent condition classifies as `True`. -/
def ParsedClassRule.state (r : ParsedClassRule) : Known :=
  match r.condition with
  | some e => is_known e
  | none => Known.True

/-- The validation errors of `ClassName::parse`, in source order. -/
inductive ValidationError where
  | empty
  | whitespace
  | htmlUnsafe
  | nonPrintable
deriving DecidableEq, Repr

/--
UTF-8 encoding of one scalar value, written with division and remainder
(equivalent to the usual shift-and-mask formulation). This models Rust's
`str::as_bytes` view of a `char`.
-/
def utf8EncodeCharNat (c : Char) : List Nat :=
  if c.toNat < 0x80 then [c.toNat]
  else if c.toNat < 0x800 then [0xC0 + c.toNat / 0x40, 0x80 + c.toNat % 0x40]
  else if c.toNat < 0x10000 then
    [0xE0 + c.toNat / 0x1000, 0x80 + c.toNat / 0x40 % 0x40, 0x80 + c.toNat % 0x40]
  else
    [0xF0 + c.toNat / 0x40000, 0x80 + c.toNat / 0x1000 % 0x40,
      0x80 + c.toNat / 0x40 % 0x40, 0x80 + c.toNat % 0x40]

/-- The byte view of a string, as Rust's `String::as_bytes`. -/
def strBytes (s : String) : List Nat :=
  s.data.flatMap utf8EncodeCharNat

/--
Rust's `char::is_whitespace`: the Unicode `White_Space` property
(U+0009..U+000D, U+0020, U+0085, U+00A0, U+1680, U+2000..U+200A, U+2028,
U+2029, U+202F, U+205F, U+3000).
-/
def rustIsWhitespace (c : Char) : Bool :=
  let v := c.toNat
  (0x09 ≤ v && v ≤ 0x0D) || v == 0x20 || v == 0x85 || v == 0xA0 ||
    v == 0x1680 || (0x2000 ≤ v && v ≤ 0x200A) || v == 0x2028 ||
    v == 0x2029 || v == 0x202F || v == 0x205F || v == 0x3000

/-- `class.contains(|c: char| c.is_whitespace())`. -/
def hasWhitespaceChar (s : String) : Bool :=
  s.data.any rustIsWhitespace

/-- The HTML-unsafe bytes checked by `ClassName::parse`: `< > & ' "`. -/
def unsafeBytes : List Nat :=
  [60, 62, 38, 39, 34]

/-- The HTML-unsafe byte scan of `ClassName::parse`. -/
def hasUnsafeByte (s : String) : Bool :=
  (strBytes s).any (fun b => unsafeBytes.contains b)

/-- Rust's `u8::is_ascii_graphic`: the printable range `0x21..=0x7E`. -/
def isAsciiGraphicByte (b : Nat) : Bool :=
  decide (0x21 ≤ b) && decide (b ≤ 0x7E)

/-- The non-printable byte scan of `ClassName::parse`. -/
def hasNonGraphicByte (s : String) : Bool :=
  (strBytes s).any (fun b => ! isAsciiGraphicByte b)

/--
`ClassName::parse`: the four validation checks, in source order with
short-circuiting. `span` is the span of the literal being parsed.
-/
def ClassName.parse (span : Nat) (s : String) : Except ValidationError ClassName :=
  if s.data.isEmpty then Except.error ValidationError.empty
  else if hasWhitespaceChar s then Except.error ValidationError.whitespace
  else if hasUnsafeByte s then Except.error ValidationError.htmlUnsafe
  else if hasNonGraphicByte s then Except.error ValidationError.nonPrintable
  else Except.ok { span := span, classStr := s }

/-- Whether a token string passes `ClassName::parse`. -/
def validToken (s : String) : Bool :=
  match ClassName.parse 0 s with
  | Except.ok _ => true
  | Except.error _ => false

/-- One raw entry of the macro invocation, before `ClassName::parse`. -/
structure RawRule where
  span : Nat
  lit : String
  condition : Option Expr
deriving DecidableEq, Repr

/-- Construction-time errors of the whole macro front end. -/
inductive ParseError where
  | invalidToken (span : Nat) (e : ValidationError)
  | duplicate (span : Nat) (prevSpan : Nat)
deriving DecidableEq, Repr

/--
Element-wise parsing performed by `Punctuated::parse_terminated`: each
literal goes through `ClassName::parse`, left to right, aborting at the
first invalid token.
-/
def parseRules : List RawRule → Except ParseError (List ParsedClassRule)
  | [] => Except.ok []
  | r :: rest =>
    match ClassName.parse r.span r.lit with
    | Except.error e => Except.error (ParseError.invalidToken r.span e)
    | Except.ok id =>
      match parseRules rest with
      | Except.error e => Except.error e
      | Except.ok rules => Except.ok ({ id := id, condition := r.condition } :: rules)

/--
The duplicate scan of `Classes::parse`: a map from class string to the
first-seen literal (here its span); a second occurrence fails with a
duplicate error carrying the current span and the previous span.
-/
def checkDuplicatesGo (seen : List (String × Nat)) :
    List ParsedClassRule → Except ParseError Unit
  | [] => Except.ok ()
  | row :: rest =>
    match seen.find? (fun entry => entry.1 == row.id.classStr) with
    | some prev => Except.error (ParseError.duplicate row.id.span prev.2)
    | none => checkDuplicatesGo ((row.id.classStr, row.id.span) :: seen) rest

/-- The duplicate check, started with an empty map. -/
def checkDuplicates (rules : List ParsedClassRule) : Except ParseError Unit :=
  checkDuplicatesGo [] rules

/-- `ClassSpec`: the post-filter form of one entry. -/
structure ClassSpec where
  id : ClassName
  condition : Option Expr
deriving DecidableEq, Repr

/--
The constant fold and filter of `Classes::parse`: pair each row with its
state, drop rows whose state `is_false`, and strip the condition whenever
the state `is_true`.
-/
def foldRows (classes : List ParsedClassRule) : List ClassSpec :=
  ((classes.map (fun row => (row.state, row))).filter
      (fun p => ! p.1.is_false)).map
    (fun p =>
      { id := p.2.id,
        condition := if p.1.is_true then none else p.2.condition })

/--
`Classes::parse`: element parsing (validation), then the duplicate check,
then constant folding.
-/
def Classes.parse (input : List RawRule) : Except ParseError (List ClassSpec) :=
  match parseRules input with
  | Except.error e => Except.error e
  | Except.ok rules =>
    match checkDuplicates rules with
    | Except.error e => Except.error e
    | Except.ok _ => Except.ok (foldRows rules)

instance {ε α : Type} [DecidableEq ε] [DecidableEq α] : DecidableEq (Except ε α) :=
  fun x y =>
    match x, y with
    | Except.ok a, Except.ok b => decidable_of_iff (a = b) (by simp)
    | Except.error a, Except.error b => decidable_of_iff (a = b) (by simp)
    | Except.ok _, Except.error _ => isFalse (by simp)
    | Except.error _, Except.ok _ => isFalse (by simp)

/-- Rust's `[&str]::join(" ")` / `join_with(' ')`. -/
def joinSpace : List String → String
  | [] => ""
  | [x] => x
  | x :: xs => x ++ " " ++ joinSpace xs

/--
`NamedClassSpec`: a group of the dynamic generator. A `Conditional` group
keeps its class and the index of its boolean field in the generated record
(the source names the field `condition{i}`; the evaluated condition
expression itself is not retained here because its runtime outcome is
supplied by the assignment). A `Fixed` group carries the merged ids and the
pre-joined rendered string.
-/
inductive NamedClassSpec where
  | Conditional (classStr : String) (field : Nat)
  | Fixed (ids : List String) (rendered : String)
deriving DecidableEq, Repr

/--
The initial mapping of `classes_impl`: an unconditional row becomes a
singleton `Fixed` group whose rendered string is the class itself, and a
conditional row becomes a `Conditional` group taking the next field index.
-/
def nameSpecs : List ClassSpec → Nat → List NamedClassSpec
  | [], _ => []
  | spec :: rest, next =>
    match spec.condition with
    | none => NamedClassSpec.Fixed [spec.id.classStr] spec.id.classStr :: nameSpecs rest next
    | some _ => NamedClassSpec.Conditional spec.id.classStr next :: nameSpecs rest (next + 1)

/--
The merge step of the `coalesce` call in `classes_impl`: two adjacent
`Fixed` groups merge, concatenating ids and joining the rendered strings
with one space; every other pair is left alone.
-/
def mergeFixed : NamedClassSpec → NamedClassSpec → Option NamedClassSpec
  | NamedClassSpec.Fixed ids1 r1, NamedClassSpec.Fixed ids2 r2 =>
    some (NamedClassSpec.Fixed (ids1 ++ ids2) (r1 ++ " " ++ r2))
  | _, _ => none

/-- The accumulator loop of `Itertools::coalesce`. -/
def coalesceGo (cur : NamedClassSpec) : List NamedClassSpec → List NamedClassSpec
  | [] => [cur]
  | y :: ys =>
    match mergeFixed cur y with
    | some m => coalesceGo m ys
    | none => cur :: coalesceGo y ys

/-- `Itertools::coalesce` over the whole group list. -/
def coalesceSpecs : List NamedClassSpec → List NamedClassSpec
  | [] => []
  | x :: xs => coalesceGo x xs

/--
One entry of `rendered_class_emissions` evaluated against the assignment:
a `Conditional` group emits its class when its field is true; a `Fixed`
group always emits its pre-rendered string.
-/
def renderedEmission (σ : List Bool) : NamedClassSpec → Option String
  | NamedClassSpec.Conditional classStr field =>
    if σ.getD field false then some classStr else none
  | NamedClassSpec.Fixed _ rendered => some rendered

/--
The accumulation loop of the generated `render`: a skipped emission leaves
the accumulator alone; an emitted class replaces an empty accumulator and
otherwise is appended after a single space.
-/
def renderFold : List (Option String) → String → String
  | [], acc => acc
  | none :: rest, acc => renderFold rest acc
  | some c :: rest, acc =>
    renderFold rest (if acc = "" then c else acc ++ " " ++ c)

/--
The loop of the generated `try_as_str`: starting from the empty string, an
emitted class is accepted only while the accumulator is still empty; a
second non-skipped emission aborts with `None`.
-/
def tryAsStrFold : List (Option String) → String → Option String
  | [], acc => some acc
  | em :: rest, acc =>
    match em with
    | some c => if acc = "" then tryAsStrFold rest c else none
    | none => tryAsStrFold rest acc

/--
The flattened slot list of `iter_class_emissions`: one slot per conditional
group and one slot per merged id of a fixed group. The generated
`Iterator::next` walks these slots in order and yields every `Some`.
-/
def iterSlots (σ : List Bool) : List NamedClassSpec → List (Option String)
  | [] => []
  | NamedClassSpec.Conditional classStr field :: rest =>
    (if σ.getD field false then some classStr else none) :: iterSlots σ rest
  | NamedClassSpec.Fixed ids _ :: rest =>
    ids.map some ++ iterSlots σ rest

/--
A generated artifact. `staticSet class_set rendered` is a value
implementing `StaticClasses` (either `fixed_set`'s `LocalClasses` or a
`StaticClassSet` row selected from the combinatorial table);
`dynamicSet specs` is the generated `DynamicClassSet` whose boolean record
is supplied by the assignment at evaluation time.
-/
inductive Artifact where
  | staticSet (class_set : List String) (rendered : String)
  | dynamicSet (specs : List NamedClassSpec)
deriving DecidableEq, Repr

/--
`render`. For a static artifact this is the blanket
`impl Classes for StaticClasses`, returning `as_str` unchanged; for a
dynamic artifact it is the generated accumulation loop.
-/
def Artifact.render (a : Artifact) (σ : List Bool) : String :=
  match a with
  | Artifact.staticSet _ rendered => rendered
  | Artifact.dynamicSet specs => renderFold (specs.map (renderedEmission σ)) ""

/--
`try_as_str`. A static artifact always answers `Some(as_str)`; a dynamic
artifact runs the fallible loop.
-/
def Artifact.try_as_str (a : Artifact) (σ : List Bool) : Option String :=
  match a with
  | Artifact.staticSet _ rendered => some rendered
  | Artifact.dynamicSet specs => tryAsStrFold (specs.map (renderedEmission σ)) ""

/--
The sequence produced by `iter()`. A static artifact iterates its
`class_set` slice; a dynamic artifact's iterator yields every populated
slot in order.
-/
def Artifact.iterSeq (a : Artifact) (σ : List Bool) : List String :=
  match a with
  | Artifact.staticSet class_set _ => class_set
  | Artifact.dynamicSet specs => (iterSlots σ specs).filterMap id

/--
`classes_impl` on the parsed and folded rows: all-unconditional inputs
short-circuit to `fixed_set` (a static artifact), otherwise the groups are
named, coalesced and packaged as a dynamic artifact.
-/
def classes_impl (rows : List ClassSpec) : Artifact :=
  if rows.all (fun row => row.condition.isNone) then
    Artifact.staticSet (rows.map (fun row => row.id.classStr))
      (joinSpace (rows.map (fun row => row.id.classStr)))
  else
    Artifact.dynamicSet (coalesceSpecs (nameSpecs rows 0))

/-- `WorkQueueItem` of the static generator. -/
structure WorkQueueItem where
  tail : List ClassSpec
  class_set : List String
  condition_set : List Bool
deriving DecidableEq, Repr

/-- Termination measure of one queue item. -/
def itemMeasure (i : WorkQueueItem) : Nat :=
  3 ^ i.tail.length

/-- Termination measure of the whole queue. -/
def queueMeasure (q : List WorkQueueItem) : Nat :=
  (q.map itemMeasure).sum

theorem queueMeasure_cons (i : WorkQueueItem) (q : List WorkQueueItem) :
    queueMeasure (i :: q) = itemMeasure i + queueMeasure q := by
  simp [queueMeasure]

theorem queueMeasure_append (q l : List WorkQueueItem) :
    queueMeasure (q ++ l) = queueMeasure q + queueMeasure l := by
  simp [queueMeasure]

/--
The breadth-first work-queue loop of `static_classes_impl`. Popping an item
with an empty remaining suffix emits one table row (assignment, class set,
space-joined rendered string); a conditional head forks the item into a
false variant (class omitted) and a true variant (class appended); an
unconditional head extends the item in place.
-/
def runQueue : List WorkQueueItem → List (List Bool × List String × String)
  | [] => []
  | { tail := [], class_set := class_set, condition_set := condition_set } :: queue =>
    (condition_set, class_set, joinSpace class_set) :: runQueue queue
  | { tail := head :: tail, class_set := class_set,
      condition_set := condition_set } :: queue =>
    match head.condition with
    | some _ =>
      runQueue (queue ++
        [{ tail := tail, class_set := class_set,
           condition_set := condition_set ++ [false] },
         { tail := tail, class_set := class_set ++ [head.id.classStr],
           condition_set := condition_set ++ [true] }])
    | none =>
      runQueue (queue ++
        [{ tail := tail, class_set := class_set ++ [head.id.classStr],
           condition_set := condition_set }])
termination_by q => queueMeasure q
decreasing_by
  · rw [queueMeasure_cons]
    have h1 : itemMeasure
        { tail := [], class_set := class_set, condition_set := condition_set } = 1 := by
      simp [itemMeasure]
    omega
  · simp only [queueMeasure, itemMeasure, List.map_append, List.map_cons, List.map_nil,
      List.sum_append, List.sum_cons, List.sum_nil, List.length_cons, Nat.pow_succ]
    have hpos : 0 < 3 ^ tail.length := Nat.pos_pow_of_pos _ (by omega)
    omega
  · simp only [queueMeasure, itemMeasure, List.map_append, List.map_cons, List.map_nil,
      List.sum_append, List.sum_cons, List.sum_nil, List.length_cons, Nat.pow_succ]
    have hpos : 0 < 3 ^ tail.length := Nat.pos_pow_of_pos _ (by omega)
    omega

/-- The combinatorial table produced by `static_classes_impl`. -/
def staticTable (rows : List ClassSpec) : List (List Bool × List String × String) :=
  runQueue [{ tail := rows, class_set := [], condition_set := [] }]

/--
`static_classes_impl` composed with its evaluation-time `match`:
all-unconditional inputs short-circuit to `fixed_set`; otherwise the
generated `match` scrutinises the tuple of live-condition outcomes (the
assignment) and the first branch whose pattern equals it selects the row's
class slice and rendered string.
-/
def static_classes_impl (rows : List ClassSpec) (σ : List Bool) : Option Artifact :=
  if rows.all (fun row => row.condition.isNone) then
    some (Artifact.staticSet (rows.map (fun row => row.id.classStr))
      (joinSpace (rows.map (fun row => row.id.classStr))))
  else
    ((staticTable rows).find? (fun row => row.1 == σ)).map
      (fun row => Artifact.staticSet row.2.1 row.2.2)

/-- The number of live conditions among the filtered rows. -/
def numConds : List ClassSpec → Nat
  | [] => 0
  | spec :: rest =>
    match spec.condition with
    | some _ => numConds rest + 1
    | none => numConds rest

/--
The reference semantics: the live tokens of an assignment, in declaration
order. Unconditional entries always contribute; a conditional entry
consumes the next assignment boolean and contributes exactly when it is
true.
-/
def liveTokens : List ClassSpec → List Bool → List String
  | [], _ => []
  | spec :: rest, σ =>
    match spec.condition with
    | none => spec.id.classStr :: liveTokens rest σ
    | some _ =>
      (if σ.headD false then [spec.id.classStr] else []) ++ liveTokens rest σ.tail

/-- All boolean assignments of a given length, false branch first. -/
def assignments : Nat → List (List Bool)
  | 0 => [[]]
  | n + 1 =>
    (assignments n).map (fun σ => false :: σ) ++
      (assignments n).map (fun σ => true :: σ)

/--
The depth-first formulation of the table of one work item, used as the
induction vehicle for the queue: it contains the same rows as the
breadth-first loop, up to permutation.
-/
def tableOf : List ClassSpec → List String → List Bool →
    List (List Bool × List String × String)
  | [], class_set, condition_set => [(condition_set, class_set, joinSpace class_set)]
  | spec :: tail, class_set, condition_set =>
    match spec.condition with
    | some _ =>
      tableOf tail class_set (condition_set ++ [false]) ++
        tableOf tail (class_set ++ [spec.id.classStr]) (condition_set ++ [true])
    | none => tableOf tail (class_set ++ [spec.id.classStr]) condition_set

/-- The rows eventually contributed by one queue item. -/
def itemRows (i : WorkQueueItem) : List (List Bool × List String × String) :=
  tableOf i.tail i.class_set i.condition_set

/-- The tokens a single group contributes under an assignment. -/
def specTokens (σ : List Bool) : NamedClassSpec → List String
  | NamedClassSpec.Conditional classStr field =>
    if σ.getD field false then [classStr] else []
  | NamedClassSpec.Fixed ids _ => ids

/-- The per-group token lists of the groups that emit under an assignment. -/
def groupTokens (σ : List Bool) : List NamedClassSpec → List (List String)
  | [] => []
  | NamedClassSpec.Conditional classStr field :: rest =>
    (if σ.getD field false then [[classStr]] else []) ++ groupTokens σ rest
  | NamedClassSpec.Fixed ids _ :: rest => [ids] ++ groupTokens σ rest

/--
The invariant maintained by naming and coalescing: a conditional group
carries a nonempty class, and a fixed group carries a nonempty id list of
nonempty tokens whose rendered string is their space-join.
-/
def GoodSpec : NamedClassSpec → Prop
  | NamedClassSpec.Conditional classStr _ => classStr ≠ ""
  | NamedClassSpec.Fixed ids rendered =>
    ids ≠ [] ∧ rendered = joinSpace ids ∧ ∀ t ∈ ids, t ≠ ""

theorem utf8_ascii (c : Char) (h : c.toNat < 0x80) :
    utf8EncodeCharNat c = [c.toNat] := by
  simp [utf8EncodeCharNat, h]

theorem utf8_high (c : Char) (h : 0x80 ≤ c.toNat) :
    ∀ b ∈ utf8EncodeCharNat c, 0x80 ≤ b := by
  intro b hb
  unfold utf8EncodeCharNat at hb
  split_ifs at hb <;> simp only [List.mem_cons, List.mem_singleton, List.not_mem_nil] at hb <;>
    rcases hb with rfl | hb <;> first | omega |
      (rcases hb with rfl | hb <;> first | omega |
        (rcases hb with rfl | hb <;> first | omega |
          (rcases hb with rfl | hb <;> first | omega | cases hb)))

theorem utf8_high_mem (c : Char) (h : 0x80 ≤ c.toNat) :
    ∃ b ∈ utf8EncodeCharNat c, 0x7E < b := by
  unfold utf8EncodeCharNat
  split_ifs with h1 h2 h3
  · omega
  · exact ⟨0xC0 + c.toNat / 0x40, List.mem_cons_self _ _, by omega⟩
  · exact ⟨0xE0 + c.toNat / 0x1000, List.mem_cons_self _ _, by omega⟩
  · exact ⟨0xF0 + c.toNat / 0x40000, List.mem_cons_self _ _, by omega⟩

theorem hasUnsafeByte_iff (s : String) :
    hasUnsafeByte s = true ↔ ∃ c ∈ s.data, c.toNat ∈ unsafeBytes := by
  unfold hasUnsafeByte strBytes
  rw [List.any_eq_true]
  constructor
  · rintro ⟨b, hb, hmem⟩
    rcases List.mem_flatMap.mp hb with ⟨c, hc, hbc⟩
    have hb5 : b ∈ unsafeBytes := by
      simpa [unsafeBytes] using hmem
    have hblt : b < 0x80 := by
      simp only [unsafeBytes, List.mem_cons, List.not_mem_nil, or_false] at hb5
      omega
    rcases Nat.lt_or_ge c.toNat 0x80 with hlt | hge
    · rw [utf8_ascii c hlt] at hbc
      simp only [List.mem_singleton] at hbc
      exact ⟨c, hc, by rw [← hbc]; exact hb5⟩
    · exact absurd (utf8_high c hge b hbc) (by omega)
  · rintro ⟨c, hc, hmem⟩
    have hlt : c.toNat < 0x80 := by
      simp only [unsafeBytes, List.mem_cons, List.not_mem_nil, or_false] at hmem
      omega
    refine ⟨c.toNat, List.mem_flatMap.mpr ⟨c, hc, ?_⟩, ?_⟩
    · rw [utf8_ascii c hlt]; exact List.mem_singleton.mpr rfl
    · simpa [unsafeBytes] using hmem

theorem hasNonGraphicByte_iff (s : String) :
    hasNonGraphicByte s = true ↔
      ∃ c ∈ s.data, c.toNat < 0x21 ∨ 0x7E < c.toNat := by
  unfold hasNonGraphicByte strBytes
  rw [List.any_eq_true]
  constructor
  · rintro ⟨b, hb, hbad⟩
    rcases List.mem_flatMap.mp hb with ⟨c, hc, hbc⟩
    have hbad2 : b < 0x21 ∨ 0x7E < b := by
      simp only [isAsciiGraphicByte, Bool.not_eq_true', Bool.and_eq_false_iff,
        decide_eq_false_iff_not, Nat.not_le] at hbad
      omega
    rcases Nat.lt_or_ge c.toNat 0x80 with hlt | hge
    · rw [utf8_ascii c hlt] at hbc
      simp only [List.mem_singleton] at hbc
      exact ⟨c, hc, by omega⟩
    · exact ⟨c, hc, by omega⟩
  · rintro ⟨c, hc, hbad⟩
    rcases Nat.lt_or_ge c.toNat 0x80 with hlt | hge
    · refine ⟨c.toNat, List.mem_flatMap.mpr ⟨c, hc, ?_⟩, ?_⟩
      · rw [utf8_ascii c hlt]; exact List.mem_singleton.mpr rfl
      · simp only [isAsciiGraphicByte, Bool.not_eq_true', Bool.and_eq_false_iff,
          decide_eq_false_iff_not, Nat.not_le]
        omega
    · rcases utf8_high_mem c hge with ⟨b, hbc, hbig⟩
      refine ⟨b, List.mem_flatMap.mpr ⟨c, hc, hbc⟩, ?_⟩
      simp only [isAsciiGraphicByte, Bool.not_eq_true', Bool.and_eq_false_iff,
        decide_eq_false_iff_not, Nat.not_le]
      omega

/--
C7: `ClassName::parse` checks, in this fixed priority order with
short-circuiting: empty string, whitespace character, HTML-unsafe byte
(`< > & ' "`), non-ASCII-printable byte; a string violating several rules
is reported only for the highest-priority one, and a string violating none
is returned as the token. The byte scans coincide with the character-level
conditions shown in the last two equivalences.
-/
theorem token_validation (span : Nat) (s : String) :
    (ClassName.parse span s = Except.error ValidationError.empty ↔
      s.data.isEmpty = true) ∧
    (ClassName.parse span s = Except.error ValidationError.whitespace ↔
      (s.data.isEmpty = false ∧ hasWhitespaceChar s = true)) ∧
    (ClassName.parse span s = Except.error ValidationError.htmlUnsafe ↔
      (s.data.isEmpty = false ∧ hasWhitespaceChar s = false ∧
        hasUnsafeByte s = true)) ∧
    (ClassName.parse span s = Except.error ValidationError.nonPrintable ↔
      (s.data.isEmpty = false ∧ hasWhitespaceChar s = false ∧
        hasUnsafeByte s = false ∧ hasNonGraphicByte s = true)) ∧
    (ClassName.parse span s = Except.ok { span := span, classStr := s } ↔
      (s.data.isEmpty = false ∧ hasWhitespaceChar s = false ∧
        hasUnsafeByte s = false ∧ hasNonGraphicByte s = false)) ∧
    (hasUnsafeByte s = true ↔ ∃ c ∈ s.data, c.toNat ∈ unsafeBytes) ∧
    (hasNonGraphicByte s = true ↔
      ∃ c ∈ s.data, c.toNat < 0x21 ∨ 0x7E < c.toNat) := by
  refine ⟨?_, ?_, ?_, ?_, ?_, hasUnsafeByte_iff s, hasNonGraphicByte_iff s⟩ <;>
    unfold ClassName.parse <;> split_ifs with h1 h2 h3 h4 <;>
    simp_all

/-- C7 witness: concrete runs of the validator through the theorem. -/
theorem token_validation_witness :
    ClassName.parse 7 "a b" = Except.error ValidationError.whitespace ∧
    ClassName.parse 7 "ok-token" = Except.ok { span := 7, classStr := "ok-token" } :=
  ⟨((token_validation 7 "a b").2.1).mpr (by decide),
    ((token_validation 7 "ok-token").2.2.2.2.1).mpr (by decide)⟩

/--
C8: the condition classifier is structural: boolean literals map to
`True`/`False`; grouping, parenthesisation and blocks ending in a bare
trailing expression recurse; a block whose final statement is not a bare
trailing expression maps to `Maybe`; `break`, `continue` and `return` map
to `Never`; unary `!` maps to the lattice negation of the inner
classification; every other expression maps to `Maybe`; and an entry with
no condition is classified `True`.
-/
theorem condition_classifier :
    is_known (Expr.lit true) = Known.True ∧
    is_known (Expr.lit false) = Known.False ∧
    (∀ e, is_known (Expr.group e) = is_known e) ∧
    (∀ e, is_known (Expr.paren e) = is_known e) ∧
    (∀ e, is_known (Expr.blockTrailing e) = is_known e) ∧
    is_known Expr.blockOpaque = Known.Maybe ∧
    is_known Expr.breakExpr = Known.Never ∧
    is_known Expr.continueExpr = Known.Never ∧
    is_known Expr.returnExpr = Known.Never ∧
    (∀ e, is_known (Expr.unaryNot e) = (is_known e).not) ∧
    is_known Expr.other = Known.Maybe ∧
    (∀ id : ClassName, ParsedClassRule.state { id := id, condition := none } = Known.True) ∧
    (∀ (id : ClassName) (e : Expr),
      ParsedClassRule.state { id := id, condition := some e } = is_known e) :=
  ⟨rfl, rfl, fun _ => rfl, fun _ => rfl, fun _ => rfl, rfl, rfl, rfl, rfl,
    fun _ => rfl, rfl, fun _ => rfl, fun _ _ => rfl⟩

/--
C9: negation on the `Known` lattice swaps `True` and `False`, fixes
`Maybe` and fixes `Never`; it is an involution; `Never` counts as false
for filtering yet its negation is not `True`.
-/
theorem known_negation :
    Known.not Known.True = Known.False ∧
    Known.not Known.False = Known.True ∧
    Known.not Known.Maybe = Known.Maybe ∧
    Known.not Known.Never = Known.Never ∧
    (∀ k : Known, Known.not (Known.not k) = k) ∧
    Known.is_false Known.Never = true ∧
    ((Known.not Known.Never == Known.True) = false) :=
  ⟨rfl, rfl, rfl, rfl, fun k => by cases k <;> rfl, rfl, rfl⟩

theorem foldRows_append (a b : List ParsedClassRule) :
    foldRows (a ++ b) = foldRows a ++ foldRows b := by
  simp [foldRows, List.map_append, List.filter_append]

theorem foldRows_none_cond (cn : ClassName) :
    foldRows [{ id := cn, condition := none }] = [{ id := cn, condition := none }] := by
  simp [foldRows, ParsedClassRule.state, Known.is_false, Known.is_true]

theorem foldRows_true_cond (cn : ClassName) (c : Expr) (h : is_known c = Known.True) :
    foldRows [{ id := cn, condition := some c }] = [{ id := cn, condition := none }] := by
  simp [foldRows, ParsedClassRule.state, h, Known.is_false, Known.is_true]

theorem foldRows_false_cond (cn : ClassName) (c : Expr)
    (h : (is_known c).is_false = true) :
    foldRows [{ id := cn, condition := some c }] = [] := by
  simp [foldRows, ParsedClassRule.state, h]

/--
C5: an entry whose condition is statically classified `True` folds (and so
renders, for every assignment) identically to the entry with its condition
removed; an entry classified `False` or `Never` folds and renders
identically to deleting the entry; and the input
`["a", "b": true, "c": false]` always renders `"a b"` for both generators,
regardless of the runtime assignment.
-/
theorem fold_soundness (pre post : List ParsedClassRule) (cn : ClassName)
    (c : Expr) (σ : List Bool) :
    ((is_known c = Known.True) →
      foldRows (pre ++ [{ id := cn, condition := some c }] ++ post) =
        foldRows (pre ++ [{ id := cn, condition := none }] ++ post) ∧
      (classes_impl
          (foldRows (pre ++ [{ id := cn, condition := some c }] ++ post))).render σ =
        (classes_impl
          (foldRows (pre ++ [{ id := cn, condition := none }] ++ post))).render σ) ∧
    (((is_known c).is_false = true) →
      foldRows (pre ++ [{ id := cn, condition := some c }] ++ post) =
        foldRows (pre ++ post) ∧
      (classes_impl
          (foldRows (pre ++ [{ id := cn, condition := some c }] ++ post))).render σ =
        (classes_impl (foldRows (pre ++ post))).render σ) ∧
    (classes_impl (foldRows
        [{ id := { span := 0, classStr := "a" }, condition := none },
         { id := { span := 1, classStr := "b" }, condition := some (Expr.lit true) },
         { id := { span := 2, classStr := "c" }, condition := some (Expr.lit false) }])).render σ
      = "a b" ∧
    static_classes_impl (foldRows
        [{ id := { span := 0, classStr := "a" }, condition := none },
         { id := { span := 1, classStr := "b" }, condition := some (Expr.lit true) },
         { id := { span := 2, classStr := "c" }, condition := some (Expr.lit false) }]) σ
      = some (Artifact.staticSet ["a", "b"] "a b") := by
  have habc : foldRows
      [{ id := { span := 0, classStr := "a" }, condition := none },
       { id := { span := 1, classStr := "b" }, condition := some (Expr.lit true) },
       { id := { span := 2, classStr := "c" }, condition := some (Expr.lit false) }] =
      [{ id := { span := 0, classStr := "a" }, condition := none },
       { id := { span := 1, classStr := "b" }, condition := none }] := by decide
  refine ⟨?_, ?_, ?_, ?_⟩
  · intro h
    have he : foldRows (pre ++ [{ id := cn, condition := some c }] ++ post) =
        foldRows (pre ++ [{ id := cn, condition := none }] ++ post) := by
      rw [foldRows_append, foldRows_append, foldRows_append, foldRows_append,
        foldRows_true_cond cn c h, foldRows_none_cond]
    exact ⟨he, by rw [he]⟩
  · intro h
    have he : foldRows (pre ++ [{ id := cn, condition := some c }] ++ post) =
        foldRows (pre ++ post) := by
      rw [foldRows_append, foldRows_append, foldRows_append,
        foldRows_false_cond cn c h, List.append_nil]
    exact ⟨he, by rw [he]⟩
  · rw [habc]
    have h2 : classes_impl
        [{ id := { span := 0, classStr := "a" }, condition := none },
         { id := { span := 1, classStr := "b" }, condition := none }] =
        Artifact.staticSet ["a", "b"] "a b" := by decide
    rw [h2]
    rfl
  · rw [habc]
    unfold static_classes_impl
    rw [if_pos (by decide)]
    decide

/-- C5 witness: the fold equalities at concrete classified conditions. -/
theorem fold_soundness_witness :
    (foldRows ([] ++ [⟨⟨0, "x"⟩, some (Expr.lit true)⟩] ++ []) =
      foldRows ([] ++ [⟨⟨0, "x"⟩, none⟩] ++ [])) ∧
    (foldRows ([] ++ [⟨⟨1, "y"⟩, some Expr.breakExpr⟩] ++ []) =
      foldRows ([] ++ [])) :=
  ⟨((fold_soundness [] [] ⟨0, "x"⟩ (Expr.lit true) []).1 (by decide)).1,
    ((fold_soundness [] [] ⟨1, "y"⟩ Expr.breakExpr []).2.1 (by decide)).1⟩

theorem validToken_parse (span : Nat) (s : String) (h : validToken s = true) :
    ClassName.parse span s = Except.ok { span := span, classStr := s } := by
  unfold validToken at h
  unfold ClassName.parse at h ⊢
  split_ifs at h ⊢ <;> simp_all

theorem parseRules_ok_of_valid (input : List RawRule)
    (h : ∀ r ∈ input, validToken r.lit = true) :
    parseRules input = Except.ok
      (input.map (fun r =>
        ({ id := { span := r.span, classStr := r.lit },
           condition := r.condition } : ParsedClassRule))) := by
  induction input with
  | nil => rfl
  | cons r rest ih =>
    have hr : validToken r.lit = true := h r (List.mem_cons_self r rest)
    have hrest := ih (fun x hx => h x (List.mem_cons_of_mem r hx))
    unfold parseRules
    rw [validToken_parse r.span r.lit hr, hrest]
    rfl

theorem checkDuplicatesGo_error_char :
    ∀ (rules : List ParsedClassRule) (seen : List (String × Nat)) (e : ParseError),
      checkDuplicatesGo seen rules = Except.error e →
      ∃ j, ∃ hj : j < rules.length,
        (∃ entry ∈ seen, entry.1 = (rules.get ⟨j, hj⟩).id.classStr ∧
          e = ParseError.duplicate (rules.get ⟨j, hj⟩).id.span entry.2) ∨
        (∃ i, ∃ hi : i < rules.length, i < j ∧
          (rules.get ⟨i, hi⟩).id.classStr = (rules.get ⟨j, hj⟩).id.classStr ∧
          e = ParseError.duplicate (rules.get ⟨j, hj⟩).id.span
            (rules.get ⟨i, hi⟩).id.span) := by
  intro rules
  induction rules with
  | nil => intro seen e h; cases h
  | cons row rest ih =>
    intro seen e h
    unfold checkDuplicatesGo at h
    cases hfind : seen.find? (fun entry => entry.1 == row.id.classStr) with
    | some prev =>
      rw [hfind] at h
      have hmem : prev ∈ seen := List.mem_of_find?_eq_some hfind
      have hbeq := List.find?_some hfind
      have heq : prev.1 = row.id.classStr := by simpa using hbeq
      have he : e = ParseError.duplicate row.id.span prev.2 := by
        cases h
        rfl
      exact ⟨0, Nat.succ_pos _, Or.inl ⟨prev, hmem, heq, he⟩⟩
    | none =>
      rw [hfind] at h
      rcases ih ((row.id.classStr, row.id.span) :: seen) e h with ⟨j, hj, hcase⟩
      rcases hcase with ⟨entry, hentry, heq, he⟩ | ⟨i, hi, hij, heq, he⟩
      · rcases List.mem_cons.mp hentry with rfl | hentry2
        · exact ⟨j + 1, Nat.succ_lt_succ hj,
            Or.inr ⟨0, Nat.succ_pos _, Nat.succ_pos _, heq, he⟩⟩
        · exact ⟨j + 1, Nat.succ_lt_succ hj, Or.inl ⟨entry, hentry2, heq, he⟩⟩
      · exact ⟨j + 1, Nat.succ_lt_succ hj,
          Or.inr ⟨i + 1, Nat.succ_lt_succ hi, Nat.succ_lt_succ hij, heq, he⟩⟩

theorem checkDuplicatesGo_ok_char :
    ∀ (rules : List ParsedClassRule) (seen : List (String × Nat)),
      checkDuplicatesGo seen rules = Except.ok () →
      (∀ j, ∀ hj : j < rules.length, ∀ entry ∈ seen,
        ¬ entry.1 = (rules.get ⟨j, hj⟩).id.classStr) ∧
      (∀ i j, ∀ hi : i < rules.length, ∀ hj : j < rules.length, i < j →
        ¬ (rules.get ⟨i, hi⟩).id.classStr = (rules.get ⟨j, hj⟩).id.classStr) := by
  intro rules
  induction rules with
  | nil =>
    intro seen _
    exact ⟨fun j hj => absurd hj (Nat.not_lt_zero j),
      fun i j hi => absurd hi (Nat.not_lt_zero i)⟩
  | cons row rest ih =>
    intro seen h
    unfold checkDuplicatesGo at h
    cases hfind : seen.find? (fun entry => entry.1 == row.id.classStr) with
    | some prev => rw [hfind] at h; cases h
    | none =>
      rw [hfind] at h
      rcases ih ((row.id.classStr, row.id.span) :: seen) h with ⟨hseen, hpair⟩
      have hnone := List.find?_eq_none.mp hfind
      constructor
      · intro j hj entry hentry
        cases j with
        | zero =>
          have := hnone entry hentry
          simpa using this
        | succ j2 =>
          exact hseen j2 (Nat.lt_of_succ_lt_succ hj) entry
            (List.mem_cons_of_mem _ hentry)
      · intro i j hi hj hij
        cases j with
        | zero => exact absurd hij (Nat.not_lt_zero i)
        | succ j2 =>
          cases i with
          | zero =>
            intro hcontra
            exact hseen j2 (Nat.lt_of_succ_lt_succ hj)
              (row.id.classStr, row.id.span) (List.mem_cons_self _ _) hcontra
          | succ i2 =>
            exact hpair i2 j2 (Nat.lt_of_succ_lt_succ hi)
              (Nat.lt_of_succ_lt_succ hj) (Nat.lt_of_succ_lt_succ hij)

/--
C6: a repeated token string makes construction fail with a duplicate error
reporting the spans of two occurrences of that token (the later occurrence
first, then the earlier one), regardless of the two entries' conditions —
the duplicate check runs before constant folding and filtering.
-/
theorem duplicate_detection (input : List RawRule)
    (hval : ∀ r ∈ input, validToken r.lit = true)
    (hdup : ∃ i, ∃ j, ∃ hi : i < input.length, ∃ hj : j < input.length, i < j ∧
      (input.get ⟨i, hi⟩).lit = (input.get ⟨j, hj⟩).lit) :
    ∃ i, ∃ j, ∃ hi : i < input.length, ∃ hj : j < input.length, i < j ∧
      (input.get ⟨i, hi⟩).lit = (input.get ⟨j, hj⟩).lit ∧
      Classes.parse input = Except.error
        (ParseError.duplicate (input.get ⟨j, hj⟩).span (input.get ⟨i, hi⟩).span) := by
  have hpr := parseRules_ok_of_valid input hval
  have hlen : (input.map (fun r =>
      ({ id := { span := r.span, classStr := r.lit },
         condition := r.condition } : ParsedClassRule))).length = input.length :=
    List.length_map _ _
  have hget : ∀ k, ∀ hk : k < (input.map (fun r =>
      ({ id := { span := r.span, classStr := r.lit },
         condition := r.condition } : ParsedClassRule))).length,
      (input.map (fun r =>
        ({ id := { span := r.span, classStr := r.lit },
           condition := r.condition } : ParsedClassRule))).get ⟨k, hk⟩ =
      { id := { span := (input.get ⟨k, hlen ▸ hk⟩).span,
                classStr := (input.get ⟨k, hlen ▸ hk⟩).lit },
        condition := (input.get ⟨k, hlen ▸ hk⟩).condition } := by
    intro k hk
    exact List.get_map _
  cases hgo : checkDuplicates (input.map (fun r =>
      ({ id := { span := r.span, classStr := r.lit },
         condition := r.condition } : ParsedClassRule))) with
  | ok u =>
    exfalso
    rcases hdup with ⟨i, j, hi, hj, hij, heq⟩
    cases u
    rcases checkDuplicatesGo_ok_char _ [] hgo with ⟨_, hpair⟩
    refine hpair i j (hlen ▸ hi) (hlen ▸ hj) hij ?_
    rw [hget i (hlen ▸ hi), hget j (hlen ▸ hj)]
    exact heq
  | error e =>
    rcases checkDuplicatesGo_error_char _ [] e hgo with ⟨j, hj, hcase⟩
    rcases hcase with ⟨entry, hentry, _⟩ | ⟨i, hi, hij, heq, he⟩
    · exact absurd hentry (List.not_mem_nil entry)
    · refine ⟨i, j, hlen ▸ hi, hlen ▸ hj, hij, ?_, ?_⟩
      · have := heq
        rw [hget i hi, hget j hj] at this
        exact this
      · unfold Classes.parse
        rw [hpr]
        dsimp only
        rw [hgo]
        dsimp only
        rw [he, hget i hi, hget j hj]

/-- C6 witness: both occurrences of `"x"` are dead code, yet parsing fails
with the duplicate error naming both spans. -/
theorem duplicate_detection_witness :
    ∃ i, ∃ j, ∃ hi : i < ([⟨10, "x", some (Expr.lit false)⟩,
        ⟨11, "x", some Expr.breakExpr⟩] : List RawRule).length,
      ∃ hj : j < ([⟨10, "x", some (Expr.lit false)⟩,
        ⟨11, "x", some Expr.breakExpr⟩] : List RawRule).length, i < j ∧
      (([⟨10, "x", some (Expr.lit false)⟩,
        ⟨11, "x", some Expr.breakExpr⟩] : List RawRule).get ⟨i, hi⟩).lit =
        (([⟨10, "x", some (Expr.lit false)⟩,
          ⟨11, "x", some Expr.breakExpr⟩] : List RawRule).get ⟨j, hj⟩).lit ∧
      Classes.parse [⟨10, "x", some (Expr.lit false)⟩,
        ⟨11, "x", some Expr.breakExpr⟩] = Except.error
        (ParseError.duplicate
          (([⟨10, "x", some (Expr.lit false)⟩,
            ⟨11, "x", some Expr.breakExpr⟩] : List RawRule).get ⟨j, hj⟩).span
          (([⟨10, "x", some (Expr.lit false)⟩,
            ⟨11, "x", some Expr.breakExpr⟩] : List RawRule).get ⟨i, hi⟩).span) :=
  duplicate_detection _ (by decide) ⟨0, 1, by decide, by decide, by decide, by decide⟩

/--
C10: when every folded row is unconditional (in particular for the empty
input and for inputs whose conditions are all literal or divergent — the
final conjunct), both generators short-circuit to the same fixed static
artifact whose string is the surviving tokens joined by single spaces,
whose class set is exactly those tokens in order, and whose `try_as_str`
always returns `Some`; no boolean record or combinatorial table is
produced.
-/
theorem zero_condition_short_circuit (input : List RawRule) (rows : List ClassSpec)
    (σ : List Bool) (h1 : Classes.parse input = Except.ok rows)
    (h2 : rows.all (fun row => row.condition.isNone) = true) :
    classes_impl rows = Artifact.staticSet (rows.map (fun row => row.id.classStr))
      (joinSpace (rows.map (fun row => row.id.classStr))) ∧
    static_classes_impl rows σ = some (classes_impl rows) ∧
    (classes_impl rows).try_as_str σ =
      some (joinSpace (rows.map (fun row => row.id.classStr))) ∧
    (classes_impl rows).iterSeq σ = rows.map (fun row => row.id.classStr) ∧
    (∀ rules : List ParsedClassRule,
      (∀ r ∈ rules, (ParsedClassRule.state r == Known.Maybe) = false) →
      (foldRows rules).all (fun row => row.condition.isNone) = true) := by
  have hc : classes_impl rows =
      Artifact.staticSet (rows.map (fun row => row.id.classStr))
        (joinSpace (rows.map (fun row => row.id.classStr))) := by
    unfold classes_impl
    rw [if_pos h2]
  refine ⟨hc, ?_, ?_, ?_, ?_⟩
  · unfold static_classes_impl
    rw [if_pos h2, hc]
  · rw [hc]; rfl
  · rw [hc]; rfl
  · intro rules hr
    rw [List.all_eq_true]
    intro spec hspec
    unfold foldRows at hspec
    rcases List.mem_map.mp hspec with ⟨p, hp, rfl⟩
    rcases List.mem_filter.mp hp with ⟨hp2, hkeep⟩
    rcases List.mem_map.mp hp2 with ⟨row, hrow, rfl⟩
    have hM := hr row hrow
    cases hstate : ParsedClassRule.state row <;>
      simp_all [Known.is_false, Known.is_true]

/-- C10 witness: a folded-true condition collapses to the fixed artifact. -/
theorem zero_condition_short_circuit_witness :
    classes_impl [⟨⟨0, "a"⟩, none⟩, ⟨⟨1, "b"⟩, none⟩] =
      Artifact.staticSet
        (([⟨⟨0, "a"⟩, none⟩, ⟨⟨1, "b"⟩, none⟩] : List ClassSpec).map
          (fun row => row.id.classStr))
        (joinSpace (([⟨⟨0, "a"⟩, none⟩, ⟨⟨1, "b"⟩, none⟩] : List ClassSpec).map
          (fun row => row.id.classStr))) ∧
    static_classes_impl [⟨⟨0, "a"⟩, none⟩, ⟨⟨1, "b"⟩, none⟩] [] =
      some (classes_impl [⟨⟨0, "a"⟩, none⟩, ⟨⟨1, "b"⟩, none⟩]) ∧
    (classes_impl [⟨⟨0, "a"⟩, none⟩, ⟨⟨1, "b"⟩, none⟩]).try_as_str [] =
      some (joinSpace (([⟨⟨0, "a"⟩, none⟩, ⟨⟨1, "b"⟩, none⟩] : List ClassSpec).map
        (fun row => row.id.classStr))) ∧
    (classes_impl [⟨⟨0, "a"⟩, none⟩, ⟨⟨1, "b"⟩, none⟩]).iterSeq [] =
      ([⟨⟨0, "a"⟩, none⟩, ⟨⟨1, "b"⟩, none⟩] : List ClassSpec).map
        (fun row => row.id.classStr) ∧
    (∀ rules : List ParsedClassRule,
      (∀ r ∈ rules, (ParsedClassRule.state r == Known.Maybe) = false) →
      (foldRows rules).all (fun row => row.condition.isNone) = true) :=
  zero_condition_short_circuit
    [⟨0, "a", none⟩, ⟨1, "b", some (Expr.lit true)⟩]
    [⟨⟨0, "a"⟩, none⟩, ⟨⟨1, "b"⟩, none⟩] [] (by decide) (by decide)

theorem joinSpace_cons_cons (x y : String) (ys : List String) :
    joinSpace (x :: y :: ys) = x ++ " " ++ joinSpace (y :: ys) := rfl

theorem joinSpace_append (xs ys : List String) (hx : ¬ xs = []) (hy : ¬ ys = []) :
    joinSpace (xs ++ ys) = joinSpace xs ++ " " ++ joinSpace ys := by
  induction xs with
  | nil => cases hx rfl
  | cons x xs ih =>
    cases xs with
    | nil =>
      cases ys with
      | nil => cases hy rfl
      | cons y ys => rfl
    | cons x2 xs2 =>
      have h1 : joinSpace ((x :: x2 :: xs2) ++ ys) =
          x ++ " " ++ joinSpace ((x2 :: xs2) ++ ys) := rfl
      rw [h1, ih (by simp), joinSpace_cons_cons]
      simp [String.append_assoc]

theorem string_append_space_ne_empty (a b : String) : ¬ a ++ " " ++ b = "" := by
  intro hcon
  rw [String.ext_iff] at hcon
  simpa using congrArg List.length hcon

theorem joinSpace_ne_empty (xs : List String) (hx : ¬ xs = [])
    (hne : ∀ x ∈ xs, ¬ x = "") : ¬ joinSpace xs = "" := by
  cases xs with
  | nil => cases hx rfl
  | cons x xs =>
    cases xs with
    | nil => exact hne x (List.mem_cons_self _ _)
    | cons y ys =>
      rw [joinSpace_cons_cons]
      exact string_append_space_ne_empty _ _

theorem renderFold_eq (ems : List (Option String)) (acc : String)
    (h : ∀ s : String, some s ∈ ems → ¬ s = "") :
    renderFold ems acc =
      if ems.filterMap id = [] then acc
      else if acc = "" then joinSpace (ems.filterMap id)
      else acc ++ " " ++ joinSpace (ems.filterMap id) := by
  induction ems generalizing acc with
  | nil => simp [renderFold]
  | cons em rest ih =>
    cases em with
    | none =>
      have hrest : ∀ s : String, some s ∈ rest → ¬ s = "" :=
        fun s hs => h s (List.mem_cons_of_mem _ hs)
      simpa [renderFold] using ih acc hrest
    | some c =>
      have hc : ¬ c = "" := h c (List.mem_cons_self _ _)
      have hrest : ∀ s : String, some s ∈ rest → ¬ s = "" :=
        fun s hs => h s (List.mem_cons_of_mem _ hs)
      have hfm : (some c :: rest).filterMap id = c :: rest.filterMap id := by simp
      rw [hfm]
      by_cases hacc : acc = ""
      · have hr : renderFold (some c :: rest) acc = renderFold rest c := by
          simp [renderFold, hacc]
        rw [hr, ih c hrest]
        cases hfr : rest.filterMap id with
        | nil => simp [hfr, hc, hacc, joinSpace]
        | cons y ys =>
          simp only [hfr, joinSpace_cons_cons]
          simp [hc, hacc]
      · have hr : renderFold (some c :: rest) acc =
            renderFold rest (acc ++ " " ++ c) := by
          simp [renderFold, hacc]
        rw [hr, ih (acc ++ " " ++ c) hrest]
        cases hfr : rest.filterMap id with
        | nil => simp [hfr, hacc, joinSpace]
        | cons y ys =>
          have hne2 := string_append_space_ne_empty acc c
          rw [if_neg (by simp : ¬ (c :: (y :: ys) : List String) = []),
            if_neg hacc, if_neg (by simp : ¬ (y :: ys : List String) = []),
            if_neg hne2, joinSpace_cons_cons]
          simp [String.append_assoc]

theorem groupTokens_flatten (σ : List Bool) (specs : List NamedClassSpec) :
    (groupTokens σ specs).flatten = specs.flatMap (specTokens σ) := by
  induction specs with
  | nil => rfl
  | cons spec rest ih =>
    cases spec with
    | Conditional classStr field =>
      by_cases hb : σ.getD field false
      · simp only [List.flatMap_cons, groupTokens, specTokens, if_pos hb]
        simp [ih]
      · simp only [List.flatMap_cons, groupTokens, specTokens, if_neg hb]
        simp [ih]
    | Fixed ids rendered => simp [groupTokens, specTokens, ih]

theorem renderedEmissions_filterMap (σ : List Bool) (specs : List NamedClassSpec)
    (hg : ∀ spec ∈ specs, GoodSpec spec) :
    (specs.map (renderedEmission σ)).filterMap id =
      (groupTokens σ specs).map joinSpace := by
  induction specs with
  | nil => rfl
  | cons spec rest ih =>
    have hrest : ∀ spec ∈ rest, GoodSpec spec :=
      fun s hs => hg s (List.mem_cons_of_mem _ hs)
    cases spec with
    | Conditional classStr field =>
      by_cases hb : σ.getD field false
      · simp only [renderedEmission, groupTokens, List.map_cons, if_pos hb]
        simp [ih hrest, joinSpace]
      · simp only [renderedEmission, groupTokens, List.map_cons, if_neg hb]
        simp [ih hrest]
    | Fixed ids rendered =>
      have hgood := hg _ (List.mem_cons_self _ _)
      rcases hgood with ⟨_, hrend, _⟩
      simp [renderedEmission, groupTokens, ih hrest, hrend]

theorem groupTokens_ne_nil (σ : List Bool) (specs : List NamedClassSpec)
    (hg : ∀ spec ∈ specs, GoodSpec spec) :
    ∀ g ∈ groupTokens σ specs, ¬ g = [] := by
  induction specs with
  | nil => intro g hgmem; cases hgmem
  | cons spec rest ih =>
    have hrest : ∀ spec ∈ rest, GoodSpec spec :=
      fun s hs => hg s (List.mem_cons_of_mem _ hs)
    intro g hgmem
    cases spec with
    | Conditional classStr field =>
      by_cases hb : σ.getD field false
      · simp only [groupTokens, hb, if_pos] at hgmem
        rcases List.mem_cons.mp hgmem with rfl | h2
        · simp
        · exact ih hrest g h2
      · simp only [groupTokens, hb] at hgmem
        simp only [if_neg, Bool.false_eq_true, not_false_eq_true,
          List.nil_append] at hgmem
        exact ih hrest g hgmem
    | Fixed ids rendered =>
      have hgood := hg _ (List.mem_cons_self _ _)
      rcases hgood with ⟨hids, _, _⟩
      simp only [groupTokens, List.singleton_append] at hgmem
      rcases List.mem_cons.mp hgmem with rfl | h2
      · exact hids
      · exact ih hrest g h2

theorem flatten_ne_nil (L : List (List String)) (hL : ¬ L = [])
    (h : ∀ g ∈ L, ¬ g = []) : ¬ L.flatten = [] := by
  cases L with
  | nil => cases hL rfl
  | cons g rest =>
    have hg : ¬ g = [] := h g (List.mem_cons_self _ _)
    simp only [List.flatten_cons]
    intro hcon
    exact hg (List.append_eq_nil.mp hcon).1

theorem joinSpace_map_flatten (L : List (List String)) (h : ∀ g ∈ L, ¬ g = []) :
    joinSpace (L.map joinSpace) = joinSpace L.flatten := by
  induction L with
  | nil => rfl
  | cons g rest ih =>
    have hg : ¬ g = [] := h g (List.mem_cons_self _ _)
    have hrest : ∀ x ∈ rest, ¬ x = [] := fun x hx => h x (List.mem_cons_of_mem _ hx)
    cases rest with
    | nil => simp [joinSpace]
    | cons g2 rs =>
      have hflat : ¬ (g2 :: rs).flatten = [] :=
        flatten_ne_nil _ (by simp) hrest
      have hmap : List.map joinSpace (g2 :: rs) =
          joinSpace g2 :: List.map joinSpace rs := List.map_cons _ _ _
      rw [List.map_cons, hmap, joinSpace_cons_cons, ← hmap, ih hrest]
      have hfc : (g :: g2 :: rs).flatten = g ++ (g2 :: rs).flatten := rfl
      rw [hfc, joinSpace_append g _ hg hflat]

theorem iterSlots_filterMap (σ : List Bool) (specs : List NamedClassSpec) :
    (iterSlots σ specs).filterMap id = specs.flatMap (specTokens σ) := by
  induction specs with
  | nil => rfl
  | cons spec rest ih =>
    cases spec with
    | Conditional classStr field =>
      by_cases hb : σ.getD field false
      · simp only [List.flatMap_cons, iterSlots, specTokens, if_pos hb]
        simp [ih]
      · simp only [List.flatMap_cons, iterSlots, specTokens, if_neg hb]
        simp [ih]
    | Fixed ids rendered =>
      simp [iterSlots, specTokens, List.filterMap_append, ih,
        List.filterMap_map, List.filterMap_some]

theorem dyn_render_eq (σ : List Bool) (specs : List NamedClassSpec)
    (hg : ∀ spec ∈ specs, GoodSpec spec) :
    (Artifact.dynamicSet specs).render σ =
      joinSpace (specs.flatMap (specTokens σ)) := by
  have hne : ∀ s : String, some s ∈ specs.map (renderedEmission σ) → ¬ s = "" := by
    intro s hs
    rcases List.mem_map.mp hs with ⟨spec, hspec, hem⟩
    have hgood := hg spec hspec
    cases spec with
    | Conditional classStr field =>
      simp only [renderedEmission] at hem
      by_cases hb : σ.getD field false
      · rw [if_pos hb] at hem
        cases hem
        exact hgood
      · rw [if_neg hb] at hem
        cases hem
    | Fixed ids rendered =>
      simp only [renderedEmission] at hem
      cases hem
      rcases hgood with ⟨hids, hrend, htok⟩
      rw [hrend]
      exact joinSpace_ne_empty ids hids htok
  show renderFold (specs.map (renderedEmission σ)) "" = _
  rw [renderFold_eq _ _ hne, renderedEmissions_filterMap σ specs hg]
  by_cases hempty : (groupTokens σ specs).map joinSpace = []
  · have hgt : groupTokens σ specs = [] := List.map_eq_nil.mp hempty
    have hflat : specs.flatMap (specTokens σ) = [] := by
      rw [← groupTokens_flatten, hgt]
      rfl
    rw [if_pos hempty, hflat]
    rfl
  · rw [if_neg hempty, if_pos rfl,
      joinSpace_map_flatten _ (groupTokens_ne_nil σ specs hg),
      groupTokens_flatten]

theorem mergeFixed_good (a b m : NamedClassSpec) (ha : GoodSpec a)
    (hb : GoodSpec b) (hm : mergeFixed a b = some m) : GoodSpec m := by
  cases a with
  | Conditional c1 f1 => cases hm
  | Fixed ids1 r1 =>
    cases b with
    | Conditional c2 f2 => cases hm
    | Fixed ids2 r2 =>
      cases hm
      rcases ha with ⟨hne1, hr1, ht1⟩
      rcases hb with ⟨hne2, hr2, ht2⟩
      refine ⟨by simp [hne1], ?_, ?_⟩
      · rw [hr1, hr2, joinSpace_append ids1 ids2 hne1 hne2]
      · intro t ht
        rcases List.mem_append.mp ht with h1 | h2
        · exact ht1 t h1
        · exact ht2 t h2

theorem mergeFixed_tokens (σ : List Bool) (a b m : NamedClassSpec)
    (hm : mergeFixed a b = some m) :
    specTokens σ m = specTokens σ a ++ specTokens σ b := by
  cases a with
  | Conditional c1 f1 => cases hm
  | Fixed ids1 r1 =>
    cases b with
    | Conditional c2 f2 => cases hm
    | Fixed ids2 r2 =>
      cases hm
      rfl

theorem coalesceGo_good (cur : NamedClassSpec) (rest : List NamedClassSpec)
    (hc : GoodSpec cur) (hr : ∀ s ∈ rest, GoodSpec s) :
    ∀ s ∈ coalesceGo cur rest, GoodSpec s := by
  induction rest generalizing cur with
  | nil =>
    intro s hs
    rcases List.mem_singleton.mp hs with rfl
    exact hc
  | cons y ys ih =>
    have hy : GoodSpec y := hr y (List.mem_cons_self _ _)
    have hys : ∀ s ∈ ys, GoodSpec s := fun s hs => hr s (List.mem_cons_of_mem _ hs)
    intro s hs
    unfold coalesceGo at hs
    cases hm : mergeFixed cur y with
    | some m =>
      rw [hm] at hs
      exact ih m (mergeFixed_good cur y m hc hy hm) hys s hs
    | none =>
      rw [hm] at hs
      rcases List.mem_cons.mp hs with rfl | h2
      · exact hc
      · exact ih y hy hys s h2

theorem coalesceGo_tokens (σ : List Bool) (cur : NamedClassSpec)
    (rest : List NamedClassSpec) :
    (coalesceGo cur rest).flatMap (specTokens σ) =
      specTokens σ cur ++ rest.flatMap (specTokens σ) := by
  induction rest generalizing cur with
  | nil => simp [coalesceGo]
  | cons y ys ih =>
    unfold coalesceGo
    cases hm : mergeFixed cur y with
    | some m =>
      rw [ih m, mergeFixed_tokens σ cur y m hm]
      simp [List.append_assoc]
    | none =>
      simp only [List.flatMap_cons, ih y]

theorem coalesceSpecs_good (specs : List NamedClassSpec)
    (hg : ∀ s ∈ specs, GoodSpec s) :
    ∀ s ∈ coalesceSpecs specs, GoodSpec s := by
  cases specs with
  | nil => intro s hs; cases hs
  | cons x xs =>
    exact coalesceGo_good x xs (hg x (List.mem_cons_self _ _))
      (fun s hs => hg s (List.mem_cons_of_mem _ hs))

theorem coalesceSpecs_tokens (σ : List Bool) (specs : List NamedClassSpec) :
    (coalesceSpecs specs).flatMap (specTokens σ) =
      specs.flatMap (specTokens σ) := by
  cases specs with
  | nil => rfl
  | cons x xs => simp [coalesceSpecs, coalesceGo_tokens σ x xs]

theorem getD_eq_headD_drop (σ : List Bool) (n : Nat) :
    σ.getD n false = (σ.drop n).headD false := by
  induction n generalizing σ with
  | zero => cases σ <;> rfl
  | succ n ih =>
    cases σ with
    | nil => rfl
    | cons b rest => simpa using ih rest

theorem nameSpecs_good (rows : List ClassSpec) (n : Nat)
    (hv : ∀ spec ∈ rows, ¬ spec.id.classStr = "") :
    ∀ spec ∈ nameSpecs rows n, GoodSpec spec := by
  induction rows generalizing n with
  | nil => intro s hs; cases hs
  | cons row rest ih =>
    have hrow : ¬ row.id.classStr = "" := hv row (List.mem_cons_self _ _)
    have hrest : ∀ spec ∈ rest, ¬ spec.id.classStr = "" :=
      fun s hs => hv s (List.mem_cons_of_mem _ hs)
    intro s hs
    unfold nameSpecs at hs
    cases hcond : row.condition with
    | none =>
      rw [hcond] at hs
      rcases List.mem_cons.mp hs with rfl | h2
      · exact ⟨by simp, rfl, by simpa using hrow⟩
      · exact ih n hrest s h2
    | some c =>
      rw [hcond] at hs
      rcases List.mem_cons.mp hs with rfl | h2
      · exact hrow
      · exact ih (n + 1) hrest s h2

theorem nameSpecs_tokens (rows : List ClassSpec) (n : Nat) (σ : List Bool) :
    (nameSpecs rows n).flatMap (specTokens σ) = liveTokens rows (σ.drop n) := by
  induction rows generalizing n with
  | nil => rfl
  | cons row rest ih =>
    unfold nameSpecs liveTokens
    cases hcond : row.condition with
    | none => simp [specTokens, ih n]
    | some c =>
      simp only [List.flatMap_cons, specTokens, ih (n + 1)]
      rw [getD_eq_headD_drop σ n, List.tail_drop]

theorem liveTokens_all_none (rows : List ClassSpec) (σ : List Bool)
    (h : rows.all (fun row => row.condition.isNone) = true) :
    liveTokens rows σ = rows.map (fun row => row.id.classStr) := by
  induction rows generalizing σ with
  | nil => rfl
  | cons row rest ih =>
    rw [List.all_cons, Bool.and_eq_true] at h
    cases hcond : row.condition with
    | none =>
      unfold liveTokens
      rw [hcond]
      simp [ih σ h.2]
    | some c =>
      rw [hcond] at h
      cases h.1

theorem classes_impl_iter (rows : List ClassSpec) (σ : List Bool) :
    (classes_impl rows).iterSeq σ = liveTokens rows σ := by
  unfold classes_impl
  by_cases hall : rows.all (fun row => row.condition.isNone) = true
  · rw [if_pos hall]
    show rows.map (fun row => row.id.classStr) = _
    rw [liveTokens_all_none rows σ hall]
  · rw [if_neg hall]
    show (iterSlots σ (coalesceSpecs (nameSpecs rows 0))).filterMap id = _
    rw [iterSlots_filterMap, coalesceSpecs_tokens, nameSpecs_tokens rows 0 σ,
      List.drop_zero]

theorem classes_impl_render (rows : List ClassSpec) (σ : List Bool)
    (hv : ∀ spec ∈ rows, ¬ spec.id.classStr = "") :
    (classes_impl rows).render σ = joinSpace (liveTokens rows σ) := by
  unfold classes_impl
  by_cases hall : rows.all (fun row => row.condition.isNone) = true
  · rw [if_pos hall]
    show joinSpace (rows.map (fun row => row.id.classStr)) = _
    rw [liveTokens_all_none rows σ hall]
  · rw [if_neg hall]
    rw [dyn_render_eq σ _ (coalesceSpecs_good _ (nameSpecs_good rows 0 hv)),
      coalesceSpecs_tokens, nameSpecs_tokens rows 0 σ, List.drop_zero]

theorem tryAsStrFold_render (ems : List (Option String)) (acc s : String)
    (h : tryAsStrFold ems acc = some s) : renderFold ems acc = s := by
  induction ems generalizing acc with
  | nil =>
    unfold tryAsStrFold at h
    cases h
    rfl
  | cons em rest ih =>
    cases em with
    | none =>
      simp only [tryAsStrFold] at h
      simpa [renderFold] using ih acc h
    | some c =>
      simp only [tryAsStrFold] at h
      by_cases hacc : acc = ""
      · rw [if_pos hacc] at h
        have hr := ih c h
        simp [renderFold, hacc, hr]
      · rw [if_neg hacc] at h
        cases h

/--
C3: for every parsed input and every assignment, whenever `try_as_str`
returns `Some(s)` on the generated artifact, `s` equals exactly the string
returned by `render` on that artifact; on a static artifact `try_as_str`
always returns `Some` of the rendered string.
-/
theorem try_as_str_round_trip (input : List RawRule) (rows : List ClassSpec)
    (σ : List Bool) (s : String) (cs : List String) (r : String)
    (hp : Classes.parse input = Except.ok rows) :
    ((classes_impl rows).try_as_str σ = some s →
      (classes_impl rows).render σ = s) ∧
    (Artifact.staticSet cs r).try_as_str σ =
      some ((Artifact.staticSet cs r).render σ) := by
  constructor
  · intro h
    unfold classes_impl at h ⊢
    by_cases hall : rows.all (fun row => row.condition.isNone) = true
    · rw [if_pos hall] at h ⊢
      cases h
      rfl
    · rw [if_neg hall] at h ⊢
      exact tryAsStrFold_render _ "" s h
  · rfl

/-- C3 witness: a concrete fallible fast path agreeing with `render`. -/
theorem try_as_str_round_trip_witness :
    (classes_impl [⟨⟨0, "a"⟩, none⟩, ⟨⟨1, "b"⟩, some Expr.other⟩]).render [false] = "a" ∧
    (Artifact.staticSet ["a"] "a").try_as_str [] =
      some ((Artifact.staticSet ["a"] "a").render []) :=
  ⟨(try_as_str_round_trip [⟨0, "a", none⟩, ⟨1, "b", some Expr.other⟩]
      [⟨⟨0, "a"⟩, none⟩, ⟨⟨1, "b"⟩, some Expr.other⟩] [false] "a" ["a"] "a"
      (by decide)).1 (by decide),
    (try_as_str_round_trip [⟨0, "a", none⟩, ⟨1, "b", some Expr.other⟩]
      [⟨⟨0, "a"⟩, none⟩, ⟨⟨1, "b"⟩, some Expr.other⟩] [] "a" ["a"] "a"
      (by decide)).2⟩

theorem numConds_cons_none (spec : ClassSpec) (rest : List ClassSpec)
    (hc : spec.condition = none) : numConds (spec :: rest) = numConds rest := by
  simp only [numConds]
  rw [hc]

theorem numConds_cons_some (spec : ClassSpec) (rest : List ClassSpec) (c : Expr)
    (hc : spec.condition = some c) :
    numConds (spec :: rest) = numConds rest + 1 := by
  simp only [numConds]
  rw [hc]

theorem liveTokens_cons_none (spec : ClassSpec) (rest : List ClassSpec)
    (σ : List Bool) (hc : spec.condition = none) :
    liveTokens (spec :: rest) σ = spec.id.classStr :: liveTokens rest σ := by
  simp only [liveTokens]
  rw [hc]

theorem liveTokens_cons_some (spec : ClassSpec) (rest : List ClassSpec)
    (σ : List Bool) (c : Expr) (hc : spec.condition = some c) :
    liveTokens (spec :: rest) σ =
      (if σ.headD false then [spec.id.classStr] else []) ++
        liveTokens rest σ.tail := by
  simp only [liveTokens]
  rw [hc]

theorem tableOf_cons_none (spec : ClassSpec) (tail : List ClassSpec)
    (cls : List String) (conds : List Bool) (hc : spec.condition = none) :
    tableOf (spec :: tail) cls conds =
      tableOf tail (cls ++ [spec.id.classStr]) conds := by
  simp only [tableOf]
  rw [hc]

theorem tableOf_cons_some (spec : ClassSpec) (tail : List ClassSpec)
    (cls : List String) (conds : List Bool) (c : Expr)
    (hc : spec.condition = some c) :
    tableOf (spec :: tail) cls conds =
      tableOf tail cls (conds ++ [false]) ++
        tableOf tail (cls ++ [spec.id.classStr]) (conds ++ [true]) := by
  simp only [tableOf]
  rw [hc]

theorem itemRows_nil_tail (item : WorkQueueItem) (h : item.tail = []) :
    itemRows item =
      [(item.condition_set, item.class_set, joinSpace item.class_set)] := by
  unfold itemRows
  rw [h]
  rfl

theorem itemRows_cond (item : WorkQueueItem) (head : ClassSpec)
    (tail : List ClassSpec) (e : Expr) (h : item.tail = head :: tail)
    (hc : head.condition = some e) :
    itemRows item =
      itemRows ⟨tail, item.class_set, item.condition_set ++ [false]⟩ ++
      itemRows ⟨tail, item.class_set ++ [head.id.classStr],
        item.condition_set ++ [true]⟩ := by
  unfold itemRows
  rw [h]
  exact tableOf_cons_some head tail item.class_set item.condition_set e hc

theorem itemRows_uncond (item : WorkQueueItem) (head : ClassSpec)
    (tail : List ClassSpec) (h : item.tail = head :: tail)
    (hc : head.condition = none) :
    itemRows item =
      itemRows ⟨tail, item.class_set ++ [head.id.classStr],
        item.condition_set⟩ := by
  unfold itemRows
  rw [h]
  exact tableOf_cons_none head tail item.class_set item.condition_set hc

theorem runQueue_perm (q : List WorkQueueItem) :
    (runQueue q).Perm (q.flatMap itemRows) := by
  induction q using runQueue.induct with
  | case1 => simp [runQueue]
  | case2 class_set condition_set queue ih =>
    rw [runQueue, List.flatMap_cons,
      itemRows_nil_tail ⟨[], class_set, condition_set⟩ rfl]
    exact List.Perm.cons _ ih
  | case3 head tail class_set condition_set queue e hc ih =>
    have hrq : runQueue (⟨head :: tail, class_set, condition_set⟩ :: queue) =
        runQueue (queue ++
          [⟨tail, class_set, condition_set ++ [false]⟩,
           ⟨tail, class_set ++ [head.id.classStr],
             condition_set ++ [true]⟩]) := by
      rw [runQueue, hc]
    rw [hrq, List.flatMap_cons,
      itemRows_cond ⟨head :: tail, class_set, condition_set⟩ head tail e rfl hc]
    refine ih.trans ?_
    rw [List.flatMap_append]
    simp only [List.flatMap_cons, List.flatMap_nil, List.append_nil]
    exact List.perm_append_comm
  | case4 head tail class_set condition_set queue hc ih =>
    have hrq : runQueue (⟨head :: tail, class_set, condition_set⟩ :: queue) =
        runQueue (queue ++
          [⟨tail, class_set ++ [head.id.classStr], condition_set⟩]) := by
      rw [runQueue, hc]
    rw [hrq, List.flatMap_cons,
      itemRows_uncond ⟨head :: tail, class_set, condition_set⟩ head tail rfl hc]
    refine ih.trans ?_
    rw [List.flatMap_append]
    simp only [List.flatMap_cons, List.flatMap_nil, List.append_nil]
    exact List.perm_append_comm

theorem tableOf_mem (rows : List ClassSpec) (σ : List Bool) (cls : List String)
    (conds : List Bool) (h : σ.length = numConds rows) :
    (conds ++ σ, cls ++ liveTokens rows σ,
      joinSpace (cls ++ liveTokens rows σ)) ∈ tableOf rows cls conds := by
  induction rows generalizing σ cls conds with
  | nil =>
    have hσ : σ = [] := List.length_eq_zero.mp h
    subst hσ
    simp [tableOf, liveTokens]
  | cons spec rest ih =>
    cases hcond : spec.condition with
    | none =>
      have h2 : σ.length = numConds rest := by
        rw [numConds_cons_none spec rest hcond] at h
        exact h
      rw [tableOf_cons_none spec rest cls conds hcond,
        liveTokens_cons_none spec rest σ hcond]
      have hmem := ih σ (cls ++ [spec.id.classStr]) conds h2
      rw [List.append_assoc, List.singleton_append] at hmem
      exact hmem
    | some c =>
      have h2 : σ.length = numConds rest + 1 := by
        rw [numConds_cons_some spec rest c hcond] at h
        exact h
      cases σ with
      | nil => simp at h2
      | cons b σ2 =>
        have h3 : σ2.length = numConds rest := by
          simpa using h2
        rw [tableOf_cons_some spec rest cls conds c hcond,
          liveTokens_cons_some spec rest (b :: σ2) c hcond]
        cases b with
        | false =>
          refine List.mem_append_left _ ?_
          have hmem := ih σ2 cls (conds ++ [false]) h3
          rw [List.append_assoc, List.singleton_append] at hmem
          simpa using hmem
        | true =>
          refine List.mem_append_right _ ?_
          have hmem := ih σ2 (cls ++ [spec.id.classStr]) (conds ++ [true]) h3
          rw [List.append_assoc, List.singleton_append,
            List.append_assoc, List.singleton_append] at hmem
          simpa using hmem

theorem tableOf_char (rows : List ClassSpec) (cls : List String)
    (conds : List Bool) :
    ∀ row ∈ tableOf rows cls conds, ∃ τ, τ.length = numConds rows ∧
      row = (conds ++ τ, cls ++ liveTokens rows τ,
        joinSpace (cls ++ liveTokens rows τ)) := by
  induction rows generalizing cls conds with
  | nil =>
    intro row hrow
    simp only [tableOf, List.mem_singleton] at hrow
    exact ⟨[], rfl, by simpa [liveTokens] using hrow⟩
  | cons spec rest ih =>
    intro row hrow
    cases hcond : spec.condition with
    | none =>
      rw [tableOf_cons_none spec rest cls conds hcond] at hrow
      rcases ih (cls ++ [spec.id.classStr]) conds row hrow with ⟨τ, hτ, hrw⟩
      refine ⟨τ, by rw [numConds_cons_none spec rest hcond]; exact hτ, ?_⟩
      rw [liveTokens_cons_none spec rest τ hcond, hrw,
        List.append_assoc, List.singleton_append]
    | some c =>
      rw [tableOf_cons_some spec rest cls conds c hcond] at hrow
      rcases List.mem_append.mp hrow with hleft | hright
      · rcases ih cls (conds ++ [false]) row hleft with ⟨τ, hτ, hrw⟩
        refine ⟨false :: τ,
          by rw [numConds_cons_some spec rest c hcond]; simpa using hτ, ?_⟩
        rw [liveTokens_cons_some spec rest (false :: τ) c hcond, hrw]
        simp [List.append_assoc]
      · rcases ih (cls ++ [spec.id.classStr]) (conds ++ [true]) row hright with
          ⟨τ, hτ, hrw⟩
        refine ⟨true :: τ,
          by rw [numConds_cons_some spec rest c hcond]; simpa using hτ, ?_⟩
        rw [liveTokens_cons_some spec rest (true :: τ) c hcond, hrw]
        simp [List.append_assoc]


theorem staticTable_perm (rows : List ClassSpec) :
    (staticTable rows).Perm (tableOf rows [] []) := by
  have h := runQueue_perm [{ tail := rows, class_set := [], condition_set := [] }]
  simpa [staticTable, itemRows] using h

theorem staticTable_lookup (rows : List ClassSpec) (σ : List Bool)
    (h : σ.length = numConds rows) :
    (staticTable rows).find? (fun row => row.1 == σ) =
      some (σ, liveTokens rows σ, joinSpace (liveTokens rows σ)) := by
  have hperm := staticTable_perm rows
  have hmem0 := tableOf_mem rows σ [] [] h
  rw [List.nil_append, List.nil_append] at hmem0
  have hmem : (σ, liveTokens rows σ, joinSpace (liveTokens rows σ)) ∈
      staticTable rows := hperm.mem_iff.mpr hmem0
  have huniq : ∀ row ∈ staticTable rows, (row.1 == σ) = true →
      row = (σ, liveTokens rows σ, joinSpace (liveTokens rows σ)) := by
    intro row hrow hbeq
    have hrow2 : row ∈ tableOf rows [] [] := hperm.mem_iff.mp hrow
    rcases tableOf_char rows [] [] row hrow2 with ⟨τ, hτlen, hτ⟩
    rw [List.nil_append, List.nil_append] at hτ
    have heq : row.1 = σ := by simpa using hbeq
    rw [hτ] at heq ⊢
    simp only at heq
    rw [heq]
  cases hfind : (staticTable rows).find? (fun row => row.1 == σ) with
  | none =>
    rw [List.find?_eq_none] at hfind
    exact absurd (by simp)
      (hfind (σ, liveTokens rows σ, joinSpace (liveTokens rows σ)) hmem)
  | some row =>
    have h1 : row ∈ staticTable rows := List.mem_of_find?_eq_some hfind
    have h2 := List.find?_some hfind
    rw [huniq row h1 h2]

theorem className_parse_shape (sp : Nat) (s : String) (cn : ClassName)
    (h : ClassName.parse sp s = Except.ok cn) : cn = ⟨sp, s⟩ ∧ ¬ s = "" := by
  unfold ClassName.parse at h
  split_ifs at h with h1 h2 h3 h4 <;> try exact Except.noConfusion h
  cases h
  refine ⟨rfl, ?_⟩
  intro hs
  subst hs
  exact h1 rfl

theorem parseRules_shape (input : List RawRule) (rules : List ParsedClassRule)
    (h : parseRules input = Except.ok rules) :
    ∀ r ∈ rules, ¬ r.id.classStr = "" := by
  induction input generalizing rules with
  | nil =>
    unfold parseRules at h
    cases h
    intro r hr
    cases hr
  | cons x rest ih =>
    unfold parseRules at h
    cases hcn : ClassName.parse x.span x.lit with
    | error e => rw [hcn] at h; exact Except.noConfusion h
    | ok id =>
      rw [hcn] at h
      cases hrec : parseRules rest with
      | error e => rw [hrec] at h; exact Except.noConfusion h
      | ok rules2 =>
        rw [hrec] at h
        cases h
        intro r hr
        rcases List.mem_cons.mp hr with rfl | h2
        · rcases className_parse_shape x.span x.lit id hcn with ⟨hid, hne⟩
          show ¬ id.classStr = ""
          rw [hid]
          exact hne
        · exact ih rules2 hrec r h2

theorem parse_tokens_ne (input : List RawRule) (rows : List ClassSpec)
    (hp : Classes.parse input = Except.ok rows) :
    ∀ spec ∈ rows, ¬ spec.id.classStr = "" := by
  unfold Classes.parse at hp
  cases hpr : parseRules input with
  | error e => rw [hpr] at hp; exact Except.noConfusion hp
  | ok rules =>
    rw [hpr] at hp
    dsimp only at hp
    cases hdup : checkDuplicates rules with
    | error e => rw [hdup] at hp; exact Except.noConfusion hp
    | ok u =>
      rw [hdup] at hp
      dsimp only at hp
      cases u
      cases hp
      intro spec hspec
      unfold foldRows at hspec
      rcases List.mem_map.mp hspec with ⟨p, hpmem, rfl⟩
      rcases List.mem_filter.mp hpmem with ⟨hp2, _⟩
      rcases List.mem_map.mp hp2 with ⟨row, hrow, rfl⟩
      exact parseRules_shape input rules hpr row hrow

/--
C1: static/dynamic equivalence — for the same parsed input and the same
assignment of the live conditions, the static generator's selected artifact
exists and renders the identical string and yields the identical token
sequence as the dynamic generator's artifact.
-/
theorem static_dynamic_equiv (input : List RawRule) (rows : List ClassSpec)
    (σ : List Bool) (hp : Classes.parse input = Except.ok rows)
    (hσ : σ.length = numConds rows) :
    ∃ a, static_classes_impl rows σ = some a ∧
      a.render σ = (classes_impl rows).render σ ∧
      a.iterSeq σ = (classes_impl rows).iterSeq σ := by
  have hv := parse_tokens_ne input rows hp
  refine ⟨Artifact.staticSet (liveTokens rows σ) (joinSpace (liveTokens rows σ)),
    ?_, ?_, ?_⟩
  · unfold static_classes_impl
    by_cases hall : rows.all (fun row => row.condition.isNone) = true
    · rw [if_pos hall, liveTokens_all_none rows σ hall]
    · rw [if_neg hall, staticTable_lookup rows σ hσ]
      rfl
  · show joinSpace (liveTokens rows σ) = _
    rw [classes_impl_render rows σ hv]
  · show liveTokens rows σ = _
    rw [classes_impl_iter rows σ]

/-- C1 witness: the equivalence applied at a concrete input and assignment. -/
theorem static_dynamic_equiv_witness :
    ∃ a, static_classes_impl [⟨⟨0, "a"⟩, none⟩, ⟨⟨1, "b"⟩, some Expr.other⟩]
        [true] = some a ∧
      a.render [true] =
        (classes_impl [⟨⟨0, "a"⟩, none⟩, ⟨⟨1, "b"⟩, some Expr.other⟩]).render [true] ∧
      a.iterSeq [true] =
        (classes_impl [⟨⟨0, "a"⟩, none⟩, ⟨⟨1, "b"⟩, some Expr.other⟩]).iterSeq [true] :=
  static_dynamic_equiv [⟨0, "a", none⟩, ⟨1, "b", some Expr.other⟩]
    [⟨⟨0, "a"⟩, none⟩, ⟨⟨1, "b"⟩, some Expr.other⟩] [true] (by decide) (by decide)

/--
C4: order preservation — for every parsed input and every assignment, the
tokens rendered and iterated are exactly the live tokens in the original
declaration order (the input order with dropped entries removed), with
`render` joining them by single spaces; the same holds for the static
generator's artifact.
-/
theorem order_preservation (input : List RawRule) (rows : List ClassSpec)
    (σ : List Bool) (hp : Classes.parse input = Except.ok rows)
    (hσ : σ.length = numConds rows) :
    (classes_impl rows).iterSeq σ = liveTokens rows σ ∧
    (classes_impl rows).render σ = joinSpace (liveTokens rows σ) ∧
    (∀ a, static_classes_impl rows σ = some a →
      a.iterSeq σ = liveTokens rows σ ∧
      a.render σ = joinSpace (liveTokens rows σ)) := by
  have hv := parse_tokens_ne input rows hp
  refine ⟨classes_impl_iter rows σ, classes_impl_render rows σ hv, ?_⟩
  intro a ha
  unfold static_classes_impl at ha
  by_cases hall : rows.all (fun row => row.condition.isNone) = true
  · rw [if_pos hall] at ha
    cases ha
    rw [liveTokens_all_none rows σ hall]
    exact ⟨rfl, rfl⟩
  · rw [if_neg hall, staticTable_lookup rows σ hσ] at ha
    cases ha
    exact ⟨rfl, rfl⟩

/-- C4 witness: order preservation at a concrete input and assignment. -/
theorem order_preservation_witness :
    (classes_impl [⟨⟨0, "a"⟩, some Expr.other⟩, ⟨⟨1, "b"⟩, none⟩]).iterSeq
        [false] =
      liveTokens [⟨⟨0, "a"⟩, some Expr.other⟩, ⟨⟨1, "b"⟩, none⟩] [false] ∧
    (classes_impl [⟨⟨0, "a"⟩, some Expr.other⟩, ⟨⟨1, "b"⟩, none⟩]).render
        [false] =
      joinSpace (liveTokens [⟨⟨0, "a"⟩, some Expr.other⟩, ⟨⟨1, "b"⟩, none⟩]
        [false]) ∧
    (∀ a, static_classes_impl [⟨⟨0, "a"⟩, some Expr.other⟩, ⟨⟨1, "b"⟩, none⟩]
        [false] = some a →
      a.iterSeq [false] =
        liveTokens [⟨⟨0, "a"⟩, some Expr.other⟩, ⟨⟨1, "b"⟩, none⟩] [false] ∧
      a.render [false] =
        joinSpace (liveTokens [⟨⟨0, "a"⟩, some Expr.other⟩, ⟨⟨1, "b"⟩, none⟩]
          [false])) :=
  order_preservation [⟨0, "a", some Expr.other⟩, ⟨1, "b", none⟩]
    [⟨⟨0, "a"⟩, some Expr.other⟩, ⟨⟨1, "b"⟩, none⟩] [false] (by decide) (by decide)

theorem assignments_length (n : Nat) : (assignments n).length = 2 ^ n := by
  induction n with
  | zero => rfl
  | succ n ih =>
    simp only [assignments, List.length_append, List.length_map, ih]
    rw [Nat.pow_succ]
    omega

theorem mem_assignments (σ : List Bool) : σ ∈ assignments σ.length := by
  induction σ with
  | nil => simp [assignments]
  | cons b τ ih =>
    cases b with
    | false =>
      exact List.mem_append_left _ (List.mem_map.mpr ⟨τ, ih, rfl⟩)
    | true =>
      exact List.mem_append_right _ (List.mem_map.mpr ⟨τ, ih, rfl⟩)

theorem assignments_nodup (n : Nat) : (assignments n).Nodup := by
  induction n with
  | zero => simp [assignments]
  | succ n ih =>
    simp only [assignments]
    refine List.Nodup.append ?_ ?_ ?_
    · exact ih.map (fun a b hab => (List.cons.inj hab).2)
    · exact ih.map (fun a b hab => (List.cons.inj hab).2)
    · intro x hx1 hx2
      rcases List.mem_map.mp hx1 with ⟨τ1, _, rfl⟩
      rcases List.mem_map.mp hx2 with ⟨τ2, _, habs⟩
      exact Bool.noConfusion (List.cons.inj habs).1

theorem tableOf_map_fst (rows : List ClassSpec) (cls : List String)
    (conds : List Bool) :
    (tableOf rows cls conds).map (fun row => row.1) =
      (assignments (numConds rows)).map (fun τ => conds ++ τ) := by
  induction rows generalizing cls conds with
  | nil => simp [tableOf, numConds, assignments]
  | cons spec rest ih =>
    cases hcond : spec.condition with
    | none =>
      rw [tableOf_cons_none spec rest cls conds hcond,
        numConds_cons_none spec rest hcond]
      exact ih (cls ++ [spec.id.classStr]) conds
    | some c =>
      rw [tableOf_cons_some spec rest cls conds c hcond,
        numConds_cons_some spec rest c hcond]
      rw [List.map_append, ih cls (conds ++ [false]),
        ih (cls ++ [spec.id.classStr]) (conds ++ [true])]
      simp only [assignments, List.map_append, List.map_map]
      congr 1
      · apply List.map_congr_left
        intro τ _
        simp [Function.comp]
      · apply List.map_congr_left
        intro τ _
        simp [Function.comp]

/--
C2: for a parsed input whose folded rows keep `k ≥ 1` live conditions, the
work-queue enumeration produces a table of exactly `2 ^ k` rows, and every
`k`-tuple of booleans occurs as the condition pattern of exactly one row.
-/
theorem table_completeness (input : List RawRule) (rows : List ClassSpec)
    (hp : Classes.parse input = Except.ok rows)
    (hk : 1 ≤ numConds rows) :
    (staticTable rows).length = 2 ^ numConds rows ∧
    (∀ σ : List Bool, σ.length = numConds rows →
      (staticTable rows).countP (fun row => decide (row.1 = σ)) = 1) := by
  constructor
  · have h1 := (staticTable_perm rows).length_eq
    have h2 : (tableOf rows [] []).length =
        ((tableOf rows [] []).map (fun row => row.1)).length :=
      (List.length_map _ _).symm
    rw [h1, h2, tableOf_map_fst, List.length_map, assignments_length]
  · intro σ hσ
    have h1 : (staticTable rows).countP (fun row => decide (row.1 = σ)) =
        (tableOf rows [] []).countP (fun row => decide (row.1 = σ)) :=
      (staticTable_perm rows).countP_eq _
    have h2 : (tableOf rows [] []).countP (fun row => decide (row.1 = σ)) =
        ((tableOf rows [] []).map (fun row => row.1)).countP
          (fun τ => decide (τ = σ)) :=
      (List.countP_map (fun τ : List Bool => decide (τ = σ))
        (fun row : List Bool × List String × String => row.1)
        (tableOf rows [] [])).symm
    have h3 : ((tableOf rows [] []).map (fun row => row.1)) =
        assignments (numConds rows) := by
      rw [tableOf_map_fst]
      simp
    rw [h1, h2, h3]
    have hmem : σ ∈ assignments (numConds rows) := by
      have := mem_assignments σ
      rw [hσ] at this
      exact this
    exact List.count_eq_one_of_mem (assignments_nodup _) hmem

/-- C2 witness: the completeness statement at a concrete one-condition input. -/
theorem table_completeness_witness :
    (staticTable [⟨⟨0, "a"⟩, none⟩, ⟨⟨1, "b"⟩, some Expr.other⟩]).length =
      2 ^ numConds [⟨⟨0, "a"⟩, none⟩, ⟨⟨1, "b"⟩, some Expr.other⟩] ∧
    (∀ σ : List Bool,
      σ.length = numConds [⟨⟨0, "a"⟩, none⟩, ⟨⟨1, "b"⟩, some Expr.other⟩] →
      (staticTable [⟨⟨0, "a"⟩, none⟩, ⟨⟨1, "b"⟩, some Expr.other⟩]).countP
        (fun row => decide (row.1 = σ)) = 1) :=
  table_completeness [⟨0, "a", none⟩, ⟨1, "b", some Expr.other⟩]
    [⟨⟨0, "a"⟩, none⟩, ⟨⟨1, "b"⟩, some Expr.other⟩] (by decide) (by decide)

end Semester
